import Mathlib

/-!
Verification of the user-management CLI (`app/cli.py`).

The store is embedded as a list of user rows in insertion order (the spec's
"default row order").  Each CLI command of `app/cli.py` becomes a function
from the persisted store to the resulting persisted store together with the
messages it prints.  The entity declarations (`app/models.py`) and the
session provider (`app/database.py`) are not among the sources, so the
uniqueness constraints on `username`/`email`, the surrogate-key assignment and
the rollback-on-failure behaviour are modelled from the spec, as noted on the
corresponding definitions.
-/

namespace UserCli

/-- A row of the user table.  Modelled from the spec: the entity definition
lives in `app/models.py`, which is not among the sources; the spec's data
model gives the four fields, with `id` a store-assigned surrogate key. -/
structure User where
  id : Nat
  username : String
  email : String
  password : String
deriving Repr, DecidableEq

/-- The persisted state of the store: the rows of the user table, in
insertion order (the store's default row order per the spec). -/
abbrev Store := List User

/-- The messages the commands print, one constructor per distinct print of
`app/cli.py`.  `notFound` stands for the per-command "... not found!"
messages, `conflict` for "Username or email already taken!". -/
inductive Msg where
  | initialized
  | notFound (username : String)
  | userRow (u : User)
  | noUsersFound
  | conflict
  | updatedEmail (username email : String)
  | deleted (username : String)
  | noMatch (query : String)
deriving Repr, DecidableEq

/-- Modelled from the spec: the store assigns the surrogate primary key on
insert (`id` is "assigned by the store on insert"); the fresh id is one past
the largest id in the table. -/
def nextId (s : Store) : Nat :=
  s.foldr (fun r m => max r.id m) 0 + 1

/-- Modelled from the spec: the uniqueness constraints on `username` and
`email` declared by the entity (`app/models.py` is not among the sources).
True when inserting a row carrying this username and email would duplicate a
value in a unique column, which the store rejects with an integrity error. -/
def insertConflict (s : Store) (username email : String) : Bool :=
  s.any (fun r => r.username == username || r.email == email)

/-- The seed user inserted by `initialize` (its id is the first id of a
freshly recreated table). -/
def bob : User :=
  { id := 1, username := "bob", email := "bob@mail.com", password := "bobpass" }

/-- `initialize` of `app/cli.py`: drop all tables, recreate them, insert the
seed user `bob` and commit.  Whatever the prior store held is destroyed. -/
def initialize_db (_s : Store) : Store × List Msg :=
  ([bob], [Msg.initialized])

/-- `get_user` of `app/cli.py`: select the first row whose username matches
exactly; print it, or a not-found message.  Nothing is committed, so the
store is returned unchanged. -/
def get_user (s : Store) (username : String) : Store × List Msg :=
  match s.find? (fun r => r.username == username) with
  | none => (s, [Msg.notFound username])
  | some user => (s, [Msg.userRow user])

/-- `get_all_users` of `app/cli.py`: select every row; print them all, or a
no-users message. -/
def get_all_users (s : Store) : Store × List Msg :=
  if s.isEmpty then (s, [Msg.noUsersFound]) else (s, s.map Msg.userRow)

/-- Assign a new value to the email field of a row, as the statement
`user.email = new_email` does. -/
def setEmail (e : String) (r : User) : User :=
  { r with email := e }

/-- The effect of committing an update staged on the first row satisfying
`p`: the `UPDATE` hits exactly the row the preceding `first()` returned. -/
def updateFirst (p : User → Bool) (f : User → User) : Store → Store
  | [] => []
  | r :: rs => if p r then f r :: rs else r :: updateFirst p f rs

/-- `change_email` of `app/cli.py`: select the first row matching the
username; if none, print not-found; otherwise stage `user.email = new_email`
and commit.  Modelled from the spec: committing an email already held by
another row violates the unique `email` column, and `change_email` installs
no handler, so the integrity error propagates fatally and the session closes
without committing — `Except.error s` returns the store rolled back to its
prior state. -/
def change_email (s : Store) (username new_email : String) :
    Except Store (Store × List Msg) :=
  match s.find? (fun r => r.username == username) with
  | none => Except.ok (s, [Msg.notFound username])
  | some user =>
      if s.any (fun r => !(r.username == username) && r.email == new_email) then
        Except.error s
      else
        Except.ok
          (updateFirst (fun r => r.username == username) (setEmail new_email) s,
           [Msg.updatedEmail user.username new_email])

/-- `create_user` of `app/cli.py`: stage an insert of the new row and commit;
on an integrity error (modelled from the spec: a duplicate username or
email), roll back — leaving the store exactly as before — and print the
fixed conflict message; otherwise print the new row. -/
def create_user (s : Store) (username email password : String) : Store × List Msg :=
  let newuser : User :=
    { id := nextId s, username := username, email := email, password := password }
  if insertConflict s username email then
    (s, [Msg.conflict])
  else
    (s ++ [newuser], [Msg.userRow newuser])

/-- `delete_user` of `app/cli.py`: select the first row matching the
username; if none, print not-found; otherwise delete that row and commit. -/
def delete_user (s : Store) (username : String) : Store × List Msg :=
  match s.find? (fun r => r.username == username) with
  | none => (s, [Msg.notFound username])
  | some _ => (s.eraseP (fun r => r.username == username), [Msg.deleted username])

/-- Whether the character list `pat` occurs at the very front of `l`. -/
def leadsWith : List Char → List Char → Bool
  | [], _ => true
  | _ :: _, [] => false
  | a :: as, b :: bs => a == b && leadsWith as bs

/-- Whether the character list `pat` occurs contiguously anywhere in `l`. -/
def containsSub (pat : List Char) : List Char → Bool
  | [] => leadsWith pat []
  | c :: t => leadsWith pat (c :: t) || containsSub pat t

/-- The SQL `contains` operator the queries of `app/cli.py` use: a
case-sensitive substring match (per the spec; the store collation is
configured in `app/database.py`, outside the sources). -/
def strContains (s pat : String) : Bool :=
  containsSub pat.data s.data

/-- The filter of `search_users`: the row's username or email contains the
query as a substring. -/
def matchesQuery (q : String) (r : User) : Bool :=
  strContains r.username q || strContains r.email q

/-- `search_users` of `app/cli.py`: select the rows whose username or email
contains the query; print them, or a no-match message. -/
def search_users (s : Store) (query : String) : Store × List Msg :=
  let users := s.filter (matchesQuery query)
  if users.isEmpty then (s, [Msg.noMatch query]) else (s, users.map Msg.userRow)

/-- `list_users` of `app/cli.py`: select a page of rows, skipping `offset`
rows of the default row order and returning at most `limit`; print them, or
a no-users message. -/
def list_users (s : Store) (limit offset : Nat) : Store × List Msg :=
  let users := (s.drop offset).take limit
  if users.isEmpty then (s, [Msg.noUsersFound]) else (s, users.map Msg.userRow)

/-- `list_users` with both arguments omitted: typer defaults them to
`limit = 10`, `offset = 0`. -/
def list_users_default (s : Store) : Store × List Msg :=
  list_users s 10 0

/-- The usernames of the store's rows, in row order. -/
def usernames (s : Store) : List String :=
  s.map (fun r => r.username)

/-- The emails of the store's rows, in row order. -/
def emails (s : Store) : List String :=
  s.map (fun r => r.email)

/-- The spec's data-model invariant: `username` and `email` are each unique
across all rows. -/
def Inv (s : Store) : Prop :=
  (usernames s).Nodup ∧ (emails s).Nodup

instance (s : Store) : Decidable (Inv s) :=
  inferInstanceAs (Decidable (_ ∧ _))

/-! Concrete stores used to exercise the theorems, matching the spec's
testable-properties section. -/

/-- The row `create_user("a","a@x.com","p")` inserts into an empty store. -/
def rowA : User :=
  { id := 1, username := "a", email := "a@x.com", password := "p" }

/-- A second row, holding the email `b@x.com`. -/
def rowB : User :=
  { id := 2, username := "b", email := "b@x.com", password := "q" }

/-- A two-row store satisfying the uniqueness invariant. -/
def pairStore : Store :=
  [rowA, rowB]

/-- A store seeded with five users, in insertion order. -/
def fiveStore : Store :=
  [{ id := 1, username := "u1", email := "u1@x.com", password := "p1" },
   { id := 2, username := "u2", email := "u2@x.com", password := "p2" },
   { id := 3, username := "u3", email := "u3@x.com", password := "p3" },
   { id := 4, username := "u4", email := "u4@x.com", password := "p4" },
   { id := 5, username := "u5", email := "u5@x.com", password := "p5" }]

/-! Substring matching: `containsSub` agrees with the mathematical notion of
a contiguous occurrence, `l = pre ++ pat ++ post`. -/

theorem leadsWith_iff (pat l : List Char) :
    leadsWith pat l = true ↔ ∃ post, l = pat ++ post := by
  induction pat generalizing l with
  | nil => simp [leadsWith]
  | cons a as ih =>
    cases l with
    | nil => simp [leadsWith]
    | cons b bs =>
      simp only [leadsWith, Bool.and_eq_true, beq_iff_eq, ih, List.cons_append,
        List.cons.injEq]
      constructor
      · rintro ⟨rfl, post, rfl⟩
        exact ⟨post, rfl, rfl⟩
      · rintro ⟨post, rfl, rfl⟩
        exact ⟨rfl, post, rfl⟩

theorem containsSub_iff (pat l : List Char) :
    containsSub pat l = true ↔ ∃ pre post, l = pre ++ pat ++ post := by
  induction l with
  | nil =>
    simp only [containsSub, leadsWith_iff]
    constructor
    · rintro ⟨post, h⟩
      exact ⟨[], post, by simpa using h⟩
    · rintro ⟨pre, post, h⟩
      rcases List.append_eq_nil.mp h.symm with ⟨h1, h2⟩
      rcases List.append_eq_nil.mp h1 with ⟨rfl, rfl⟩
      exact ⟨[], by simp⟩
  | cons c t ih =>
    simp only [containsSub, Bool.or_eq_true, leadsWith_iff, ih]
    constructor
    · rintro (⟨post, h⟩ | ⟨pre, post, h⟩)
      · exact ⟨[], post, by simpa using h⟩
      · exact ⟨c :: pre, post, by simp [h]⟩
    · rintro ⟨pre, post, h⟩
      cases pre with
      | nil => exact Or.inl ⟨post, by simpa using h⟩
      | cons d pre =>
        right
        rcases List.cons.injEq .. ▸ h with ⟨-, h2⟩
        exact ⟨pre, post, by simpa using h2⟩

theorem strContains_iff (s pat : String) :
    strContains s pat = true ↔ ∃ pre post, s.data = pre ++ pat.data ++ post :=
  containsSub_iff pat.data s.data

theorem strContains_empty (s : String) : strContains s "" = true :=
  (containsSub_iff [] s.data).mpr ⟨[], s.data, by simp⟩

end UserCli

namespace UserCli

/-- C1: calling `create_user(u, e, p)` when a user with username `u` or
email `e` already exists reports a conflict and leaves the store exactly as
it was: no row is altered, none is added, the staged insert is rolled
back. -/
theorem create_user_conflict_rollback (s : Store) (u e p : String)
    (h : ∃ r ∈ s, r.username = u ∨ r.email = e) :
    create_user s u e p = (s, [Msg.conflict]) := by
  have hc : insertConflict s u e = true := by
    rcases h with ⟨r, hr, hre⟩
    unfold insertConflict
    rw [List.any_eq_true]
    refine ⟨r, hr, ?_⟩
    rcases hre with h1 | h1 <;> simp [h1]
  simp [create_user, hc]

/-- Witness for C1, the spec's own scenario: after `create_user("a","a@x.com","p")`
the call `create_user("a","b@x.com","q")` reports a conflict and leaves the
single row `a` untouched. -/
theorem create_user_conflict_rollback_witness :
    create_user [rowA] "a" "b@x.com" "q" = ([rowA], [Msg.conflict]) :=
  create_user_conflict_rollback [rowA] "a" "b@x.com" "q"
    ⟨rowA, by simp, Or.inl rfl⟩

/-- C6: after `initialize` the store holds exactly one user, `bob` with
email `bob@mail.com` and password `bobpass`, and the outcome does not depend
on the prior store: every previously existing row is destroyed. -/
theorem initialize_db_spec (s : Store) :
    (initialize_db s).1.length = 1 ∧
    (∀ r ∈ (initialize_db s).1,
        r.username = "bob" ∧ r.email = "bob@mail.com" ∧ r.password = "bobpass") ∧
    ∀ s₂ : Store, (initialize_db s).1 = (initialize_db s₂).1 := by
  refine ⟨rfl, ?_, fun s₂ => rfl⟩
  intro r hr
  have : r = bob := by simpa [initialize_db] using hr
  subst this
  exact ⟨rfl, rfl, rfl⟩

/-- C9: `get_user` on a username no row carries prints the not-found message
and leaves the store unchanged; it is a total function, so no error is
raised. -/
theorem get_user_missing (s : Store) (u : String)
    (h : ∀ r ∈ s, r.username ≠ u) :
    get_user s u = (s, [Msg.notFound u]) := by
  have hn : s.find? (fun r => r.username == u) = none := by
    rw [List.find?_eq_none]
    intro x hx
    simp [h x hx]
  simp [get_user, hn]

/-- Witness for C9: looking up `a` in a store holding only `b`. -/
theorem get_user_missing_witness :
    get_user [rowB] "a" = ([rowB], [Msg.notFound "a"]) :=
  get_user_missing [rowB] "a" (by decide)

/-! Helper lemmas shared by the claim theorems. -/

theorem usernames_cons (a : User) (t : Store) :
    usernames (a :: t) = a.username :: usernames t :=
  rfl

theorem emails_cons (a : User) (t : Store) :
    emails (a :: t) = a.email :: emails t :=
  rfl

/-- The filter of `search_users` accepts a row exactly when the query occurs
contiguously in its username or email. -/
theorem matchesQuery_iff (q : String) (r : User) :
    matchesQuery q r = true ↔
      (∃ pre post, r.username.data = pre ++ q.data ++ post) ∨
      (∃ pre post, r.email.data = pre ++ q.data ++ post) := by
  simp [matchesQuery, strContains_iff]

/-- With no username matching `u`, `get_user` reports not-found and leaves
the store unchanged. -/
theorem get_user_not_present (s : Store) (u : String)
    (h : ∀ r ∈ s, r.username ≠ u) :
    get_user s u = (s, [Msg.notFound u]) := by
  have hn : s.find? (fun r => r.username == u) = none := by
    rw [List.find?_eq_none]
    intro x hx
    simp [h x hx]
  simp [get_user, hn]

/-- A duplicate username or email makes `create_user` roll back and report
the conflict. -/
theorem create_user_conflict_eq (s : Store) (u e p : String)
    (h : ∃ r ∈ s, r.username = u ∨ r.email = e) :
    create_user s u e p = (s, [Msg.conflict]) := by
  have hc : insertConflict s u e = true := by
    rcases h with ⟨r, hr, hre⟩
    unfold insertConflict
    rw [List.any_eq_true]
    refine ⟨r, hr, ?_⟩
    rcases hre with h1 | h1 <;> simp [h1]
  simp [create_user, hc]

/-- When usernames are unique, `find?` returns the one row carrying the
username looked up. -/
theorem find?_username_unique (s : Store) (u : String) (r : User)
    (hN : (usernames s).Nodup) (hr : r ∈ s) (hu : r.username = u) :
    s.find? (fun x => x.username == u) = some r := by
  induction s with
  | nil => simp at hr
  | cons a t ih =>
    rw [usernames_cons, List.nodup_cons] at hN
    rcases List.mem_cons.mp hr with rfl | hrt
    · exact List.find?_cons_of_pos _ (by simp [hu])
    · have ha : ¬(a.username == u) = true := by
        simp only [beq_iff_eq]
        intro hau
        exact hN.1 (hau ▸ hu ▸ List.mem_map_of_mem _ hrt)
      exact (List.find?_cons_of_neg t ha).trans (ih hN.2 hrt)

/-- Rows whose username differs from `u` pass through the update map of
`change_email` untouched. -/
theorem map_if_eq_self (t : Store) (u : String) (f : User → User)
    (h : ∀ v ∈ t, v.username ≠ u) :
    (t.map fun v => if v.username = u then f v else v) = t := by
  induction t with
  | nil => rfl
  | cons a t ih =>
    rw [List.map_cons, if_neg (h a (List.mem_cons_self a t)),
      ih fun v hv => h v (List.mem_cons_of_mem a hv)]

/-- When usernames are unique, committing the update staged on the first
matching row acts as a pointwise map over the whole table. -/
theorem updateFirst_username_eq_map (s : Store) (u : String) (f : User → User)
    (hN : (usernames s).Nodup) :
    updateFirst (fun r => r.username == u) f s =
      s.map fun v => if v.username = u then f v else v := by
  induction s with
  | nil => rfl
  | cons a t ih =>
    rw [usernames_cons, List.nodup_cons] at hN
    by_cases ha : a.username = u
    · have ht : ∀ v ∈ t, v.username ≠ u := by
        intro v hv hvu
        exact hN.1 (ha ▸ hvu ▸ List.mem_map_of_mem _ hv)
      simp only [updateFirst, List.map_cons, if_pos ha, beq_iff_eq, ha, if_true,
        map_if_eq_self t u f ht]
    · simp only [updateFirst, List.map_cons, if_neg ha, beq_iff_eq, ih hN.2]

/-- The update map of `change_email` does not touch usernames. -/
theorem usernames_map_setEmail (s : Store) (u e : String) :
    usernames (s.map fun v => if v.username = u then setEmail e v else v) =
      usernames s := by
  induction s with
  | nil => rfl
  | cons a t ih =>
    by_cases ha : a.username = u
    · rw [List.map_cons, if_pos ha, usernames_cons, usernames_cons, ih]
      rfl
    · rw [List.map_cons, if_neg ha, usernames_cons, usernames_cons, ih]

/-- Every email of the updated table is the new email or one of the old
table's emails. -/
theorem mem_emails_update (t : Store) (u e x : String)
    (hx : x ∈ emails (t.map fun v => if v.username = u then setEmail e v else v)) :
    x = e ∨ x ∈ emails t := by
  induction t with
  | nil => simp [emails] at hx
  | cons a t ih =>
    rw [List.map_cons, emails_cons] at hx
    rcases List.mem_cons.mp hx with hxa | hxt
    · by_cases ha : a.username = u
      · rw [if_pos ha] at hxa
        exact Or.inl hxa
      · rw [if_neg ha] at hxa
        exact Or.inr (hxa ▸ List.mem_cons_self _ _)
    · rcases ih hxt with h | h
      · exact Or.inl h
      · exact Or.inr (List.mem_cons_of_mem _ h)

/-- Provided no row of another username holds the new email, `change_email`'s
committed update keeps the emails pairwise distinct. -/
theorem nodup_emails_update (s : Store) (u e : String)
    (hN : (usernames s).Nodup) (hE : (emails s).Nodup)
    (hfree : ∀ v ∈ s, v.username ≠ u → v.email ≠ e) :
    (emails (s.map fun v => if v.username = u then setEmail e v else v)).Nodup := by
  induction s with
  | nil => simp [emails]
  | cons a t ih =>
    rw [usernames_cons, List.nodup_cons] at hN
    rw [emails_cons, List.nodup_cons] at hE
    by_cases ha : a.username = u
    · have ht : ∀ v ∈ t, v.username ≠ u := by
        intro v hv hvu
        exact hN.1 (ha ▸ hvu ▸ List.mem_map_of_mem _ hv)
      rw [List.map_cons, if_pos ha, map_if_eq_self t u (setEmail e) ht, emails_cons]
      refine List.nodup_cons.mpr ⟨?_, hE.2⟩
      intro hmem
      rcases List.mem_map.mp hmem with ⟨v, hv, hve⟩
      exact hfree v (List.mem_cons_of_mem a hv) (ht v hv) hve
    · rw [List.map_cons, if_neg ha, emails_cons]
      refine List.nodup_cons.mpr ⟨?_, ?_⟩
      · intro hmem
        rcases mem_emails_update t u e a.email hmem with h | h
        · exact hfree a (List.mem_cons_self a t) ha h
        · exact hE.1 h
      · exact ih hN.2 hE.2 fun v hv => hfree v (List.mem_cons_of_mem a hv)

/-- Erasing the unique row carrying username `u` keeps exactly the rows of
every other username. -/
theorem mem_eraseP_username (s : Store) (u : String)
    (hN : (usernames s).Nodup) (r : User) :
    r ∈ s.eraseP (fun x => x.username == u) ↔
      (r ∈ s ∧ r.username ≠ u) ∨ (r ∈ s ∧ ∀ x ∈ s, x.username ≠ u) := by
  induction s with
  | nil => simp
  | cons a t ih =>
    rw [usernames_cons, List.nodup_cons] at hN
    by_cases ha : a.username = u
    · rw [List.eraseP_cons_of_pos (by simp [ha])]
      have ht : ∀ v ∈ t, v.username ≠ u := by
        intro v hv hvu
        exact hN.1 (ha ▸ hvu ▸ List.mem_map_of_mem _ hv)
      constructor
      · intro hr
        exact Or.inl ⟨List.mem_cons_of_mem a hr, ht r hr⟩
      · rintro (⟨hr, hru⟩ | ⟨hr, hall⟩)
        · rcases List.mem_cons.mp hr with rfl | hr
          · exact absurd ha hru
          · exact hr
        · exact absurd ha (hall a (List.mem_cons_self a t))
    · rw [List.eraseP_cons_of_neg (by simp [ha])]
      constructor
      · intro hr
        rcases List.mem_cons.mp hr with rfl | hr
        · exact Or.inl ⟨List.mem_cons_self r t, ha⟩
        · rcases (ih hN.2).mp hr with ⟨h1, h2⟩ | ⟨h1, h2⟩
          · exact Or.inl ⟨List.mem_cons_of_mem a h1, h2⟩
          · refine Or.inr ⟨List.mem_cons_of_mem a h1, ?_⟩
            intro x hx
            rcases List.mem_cons.mp hx with rfl | hx
            · exact ha
            · exact h2 x hx
      · rintro (⟨hr, hru⟩ | ⟨hr, hall⟩)
        · rcases List.mem_cons.mp hr with rfl | hr
          · exact List.mem_cons_self r _
          · exact List.mem_cons_of_mem a ((ih hN.2).mpr (Or.inl ⟨hr, hru⟩))
        · rcases List.mem_cons.mp hr with rfl | hr
          · exact List.mem_cons_self r _
          · exact List.mem_cons_of_mem a
              ((ih hN.2).mpr (Or.inr ⟨hr, fun x hx => hall x (List.mem_cons_of_mem a hx)⟩))

/-- C10: `search_users` with the empty query matches every row, since every
username and email contains the empty substring: it returns all users when
the store is non-empty and prints the no-match message exactly when the
store is empty. -/
theorem search_users_empty_query (s : Store) :
    search_users s "" =
      if s.isEmpty then (s, [Msg.noMatch ""]) else (s, s.map Msg.userRow) := by
  have hall : s.filter (matchesQuery "") = s :=
    List.filter_eq_self.mpr fun a _ => by
      simp [matchesQuery, strContains_empty]
  simp [search_users, hall]

/-- C2: `search_users(q)` leaves the store unchanged and prints exactly the
rows whose username or email contains `q` as a contiguous, case-sensitive
substring; when no row matches, it prints the no-match message instead. -/
theorem search_users_spec (s : Store) (q : String) :
    (search_users s q).1 = s ∧
    (∀ u : User, Msg.userRow u ∈ (search_users s q).2 ↔
        u ∈ s ∧
          ((∃ pre post, u.username.data = pre ++ q.data ++ post) ∨
           (∃ pre post, u.email.data = pre ++ q.data ++ post))) ∧
    ((∀ u ∈ s, ¬((∃ pre post, u.username.data = pre ++ q.data ++ post) ∨
        (∃ pre post, u.email.data = pre ++ q.data ++ post))) →
      (search_users s q).2 = [Msg.noMatch q]) := by
  have hmem : ∀ u : User,
      Msg.userRow u ∈ (search_users s q).2 ↔ u ∈ s ∧ matchesQuery q u = true := by
    intro u
    cases hF : s.filter (matchesQuery q) with
    | nil =>
      have hall := List.filter_eq_nil_iff.mp hF
      rw [show (search_users s q).2 = [Msg.noMatch q] from by simp [search_users, hF]]
      simp only [List.mem_singleton]
      constructor
      · intro h
        cases h
      · rintro ⟨hu, hm⟩
        exact absurd hm (hall u hu)
    | cons a l =>
      rw [show (search_users s q).2 = (a :: l).map Msg.userRow from by
            simp [search_users, hF],
          show (Msg.userRow u ∈ (a :: l).map Msg.userRow) ↔ u ∈ a :: l from by simp,
          ← hF, List.mem_filter]
  refine ⟨?_, ?_, ?_⟩
  · cases hF : s.filter (matchesQuery q) <;> simp [search_users, hF]
  · intro u
    rw [hmem u, matchesQuery_iff]
  · intro h
    have hF : s.filter (matchesQuery q) = [] :=
      List.filter_eq_nil_iff.mpr fun a ha hm =>
        h a ha ((matchesQuery_iff q a).mp hm)
    simp [search_users, hF]

/-- C3: for every store state, `list_users(limit, offset)` leaves the store
unchanged and returns exactly the window of at most `limit` users after
skipping the first `offset` users of the default (insertion) order: when the
window is empty (`limit = 0` or `offset` at or past the end) it prints
exactly the no-users message, and otherwise it prints exactly
`min limit (s.length - offset)` rows, the `k`-th printed row being the
store's row at position `offset + k`; with both arguments omitted, typer
defaults them to `limit = 10` and `offset = 0`. -/
theorem list_users_spec (s : Store) (limit offset : Nat) :
    list_users_default s = list_users s 10 0 ∧
    (list_users s limit offset).1 = s ∧
    ((limit = 0 ∨ s.length ≤ offset) →
      (list_users s limit offset).2 = [Msg.noUsersFound]) ∧
    (0 < limit → offset < s.length →
      (list_users s limit offset).2.length = min limit (s.length - offset) ∧
      ∀ k, k < limit → ∀ ho : offset + k < s.length,
        (list_users s limit offset).2[k]? =
          some (Msg.userRow (s.get ⟨offset + k, ho⟩))) := by
  refine ⟨rfl, ?_, ?_, ?_⟩
  · cases hW : (s.drop offset).take limit <;> simp [list_users, hW]
  · intro hempty
    have hnil : (s.drop offset).take limit = [] := by
      rcases hempty with h0 | hle
      · rw [h0, List.take_zero]
      · rw [List.drop_eq_nil_of_le hle, List.take_nil]
    simp [list_users, hnil]
  · intro hlim hoff
    have hpos : 0 < ((s.drop offset).take limit).length := by
      rw [List.length_take, List.length_drop]
      omega
    have hwin : ((s.drop offset).take limit).isEmpty = false := by
      rw [List.isEmpty_eq_false]
      intro hnil
      rw [hnil] at hpos
      simp at hpos
    have h2 : (list_users s limit offset).2 =
        ((s.drop offset).take limit).map Msg.userRow := by
      simp [list_users, hwin]
    refine ⟨?_, ?_⟩
    · rw [h2, List.length_map, List.length_take, List.length_drop]
    · intro k hk ho
      rw [h2, List.getElem?_map, List.getElem?_take_of_lt hk, List.getElem?_drop,
        List.getElem?_eq_getElem ho]
      simp [List.get_eq_getElem]

/-- Witness for C3, the spec's scenario: on five seeded users,
`list_users(limit=2, offset=1)` returns exactly two rows, the 2nd and 3rd
users. -/
theorem list_users_spec_witness :
    (list_users fiveStore 2 1).2.length = 2 ∧
    (list_users fiveStore 2 1).2[0]? =
      some (Msg.userRow { id := 2, username := "u2", email := "u2@x.com", password := "p2" }) ∧
    (list_users fiveStore 2 1).2[1]? =
      some (Msg.userRow { id := 3, username := "u3", email := "u3@x.com", password := "p3" }) := by
  have h := (list_users_spec fiveStore 2 1).2.2.2 (by decide) (by decide)
  exact ⟨h.1, h.2 0 (by decide) (by decide), h.2 1 (by decide) (by decide)⟩

/-- C4 fails as stated: with rows `a` and `b`, where `b` holds `b@x.com`,
`change_email("a","b@x.com")` does not set `a`'s email — the staged update
violates the unique email column, the integrity error propagates unhandled
(`Except.error`), and the session closes with the store rolled back. -/
theorem change_email_taken_email_cex :
    (∃ r ∈ pairStore, r.username = "a") ∧
    change_email pairStore "a" "b@x.com" = Except.error pairStore :=
  ⟨⟨rowA, by simp [pairStore], rfl⟩, by rfl⟩

/-- C4 (amended): for a store with unique usernames containing a row `r`
with username `u`, provided no row of another username already holds email
`e`, `change_email(u, e)` commits an update rewriting exactly the matching
row's email to `e` — keeping its id, username and password, and every other
row unchanged — and a subsequent `get_user(u)` shows that row with email `e`
and the original username and password. -/
theorem change_email_success (s : Store) (u e : String) (r : User)
    (hN : (usernames s).Nodup) (hr : r ∈ s) (hu : r.username = u)
    (hfree : ∀ v ∈ s, v.username ≠ u → v.email ≠ e) :
    change_email s u e =
      Except.ok
        (s.map fun v => if v.username = u then setEmail e v else v,
         [Msg.updatedEmail u e]) ∧
    get_user (s.map fun v => if v.username = u then setEmail e v else v) u =
      (s.map fun v => if v.username = u then setEmail e v else v,
       [Msg.userRow (setEmail e r)]) := by
  have hf : s.find? (fun x => x.username == u) = some r :=
    find?_username_unique s u r hN hr hu
  have hany : (s.any fun x => !(x.username == u) && x.email == e) = false := by
    rw [List.any_eq_false]
    intro x hx hcon
    rw [Bool.and_eq_true, Bool.not_eq_true', beq_eq_false_iff_ne, beq_iff_eq] at hcon
    exact hfree x hx hcon.1 hcon.2
  have hmap := updateFirst_username_eq_map s u (setEmail e) hN
  constructor
  · have h1 : change_email s u e =
        Except.ok (updateFirst (fun x => x.username == u) (setEmail e) s,
          [Msg.updatedEmail r.username e]) := by
      simp [change_email, hf, hany]
    rw [h1, hmap, hu]
  · have hN' : (usernames (s.map fun v =>
        if v.username = u then setEmail e v else v)).Nodup := by
      rw [usernames_map_setEmail]
      exact hN
    have hmem' : setEmail e r ∈
        s.map fun v => if v.username = u then setEmail e v else v := by
      have h := List.mem_map_of_mem
        (fun v => if v.username = u then setEmail e v else v) hr
      simpa [hu] using h
    have hf' : (s.map fun v => if v.username = u then setEmail e v else v).find?
        (fun x => x.username == u) = some (setEmail e r) :=
      find?_username_unique _ u _ hN' hmem' (by simp [setEmail, hu])
    simp [get_user, hf']

/-- Witness for the amended C4: `change_email("a","new@x.com")` on the
two-row store updates `a` in place and `get_user("a")` then shows the new
email with the original username and password. -/
theorem change_email_success_witness :
    change_email pairStore "a" "new@x.com" =
      Except.ok
        (pairStore.map fun v => if v.username = "a" then setEmail "new@x.com" v else v,
         [Msg.updatedEmail "a" "new@x.com"]) ∧
    get_user (pairStore.map fun v =>
        if v.username = "a" then setEmail "new@x.com" v else v) "a" =
      (pairStore.map fun v => if v.username = "a" then setEmail "new@x.com" v else v,
       [Msg.userRow (setEmail "new@x.com" rowA)]) :=
  change_email_success pairStore "a" "new@x.com" rowA (by decide)
    (by simp [pairStore]) rfl (by decide)

/-- C7: only `create_user` handles a uniqueness conflict — it rolls back,
prints the fixed message and returns normally — while `change_email` staging
an email already held by another row propagates the integrity error as a
fatal condition (`Except.error`), the store rolled back when the session
closes. -/
theorem conflict_handling_asymmetry (s : Store) (u e u2 e2 p : String)
    (hc : ∃ r ∈ s, r.username = u2 ∨ r.email = e2)
    (hfound : ∃ r ∈ s, r.username = u)
    (htaken : ∃ r ∈ s, r.username ≠ u ∧ r.email = e) :
    create_user s u2 e2 p = (s, [Msg.conflict]) ∧
    change_email s u e = Except.error s := by
  refine ⟨create_user_conflict_eq s u2 e2 p hc, ?_⟩
  have hsome : (s.find? (fun x => x.username == u)).isSome := by
    rw [List.find?_isSome]
    rcases hfound with ⟨r, hr, hru⟩
    exact ⟨r, hr, by simp [hru]⟩
  rcases Option.isSome_iff_exists.mp hsome with ⟨r0, hf⟩
  have hany : (s.any fun x => !(x.username == u) && x.email == e) = true := by
    rw [List.any_eq_true]
    rcases htaken with ⟨x, hx, hxu, hxe⟩
    refine ⟨x, hx, ?_⟩
    rw [Bool.and_eq_true, Bool.not_eq_true', beq_eq_false_iff_ne, beq_iff_eq]
    exact ⟨hxu, hxe⟩
  simp [change_email, hf, hany]

/-- Witness for C7 on the two-row store: a conflicting create returns
normally with the conflict message; `change_email("a","b@x.com")` errors. -/
theorem conflict_handling_asymmetry_witness :
    create_user pairStore "a" "c@x.com" "p" = (pairStore, [Msg.conflict]) ∧
    change_email pairStore "a" "b@x.com" = Except.error pairStore :=
  conflict_handling_asymmetry pairStore "a" "b@x.com" "a" "c@x.com" "p"
    ⟨rowA, by simp [pairStore], Or.inl rfl⟩
    ⟨rowA, by simp [pairStore], rfl⟩
    ⟨rowB, by simp [pairStore], by decide, rfl⟩

/-- C8: when the store holds a row with username `u` (usernames unique),
`delete_user(u)` removes exactly that row and commits: a subsequent
`get_user(u)` reports not-found and leaves the result unchanged, and the
remaining rows are exactly the rows of other usernames, in their original
order. -/
theorem delete_user_spec (s : Store) (u : String)
    (hN : (usernames s).Nodup) (hmem : ∃ r ∈ s, r.username = u) :
    ∃ s', delete_user s u = (s', [Msg.deleted u]) ∧
      get_user s' u = (s', [Msg.notFound u]) ∧
      List.Sublist s' s ∧
      ∀ r : User, r ∈ s' ↔ r ∈ s ∧ r.username ≠ u := by
  rcases hmem with ⟨r0, hr0, hru⟩
  have hf : s.find? (fun x => x.username == u) = some r0 :=
    find?_username_unique s u r0 hN hr0 hru
  refine ⟨s.eraseP (fun x => x.username == u), ?_, ?_, ?_, ?_⟩
  · simp [delete_user, hf]
  · apply get_user_not_present
    intro r hr
    rcases (mem_eraseP_username s u hN r).mp hr with ⟨-, h⟩ | ⟨-, hall⟩
    · exact h
    · exact absurd hru (hall r0 hr0)
  · exact List.eraseP_sublist s
  · intro r
    rw [mem_eraseP_username s u hN r]
    constructor
    · rintro (⟨h1, h2⟩ | ⟨h1, hall⟩)
      · exact ⟨h1, h2⟩
      · exact absurd hru (hall r0 hr0)
    · exact fun h => Or.inl h

/-- Witness for C8, the spec's scenario: `delete_user("a")` then
`get_user("a")` returns empty, with `b`'s row untouched. -/
theorem delete_user_spec_witness :
    ∃ s', delete_user pairStore "a" = (s', [Msg.deleted "a"]) ∧
      get_user s' "a" = (s', [Msg.notFound "a"]) ∧
      List.Sublist s' pairStore ∧
      ∀ r : User, r ∈ s' ↔ r ∈ pairStore ∧ r.username ≠ "a" :=
  delete_user_spec pairStore "a" (by decide) ⟨rowA, by simp [pairStore], rfl⟩

/-- Appending an element not present in a duplicate-free list keeps it
duplicate-free. -/
theorem nodup_append_single {α : Type _} (a : α) (l : List α)
    (ha : a ∉ l) (hl : l.Nodup) : (l ++ [a]).Nodup := by
  induction l with
  | nil => simp
  | cons b t ih =>
    rcases List.nodup_cons.mp hl with ⟨hb, ht⟩
    rw [List.cons_append, List.nodup_cons]
    refine ⟨?_, ih (fun h => ha (List.mem_cons_of_mem b h)) ht⟩
    intro hmem
    rcases List.mem_append.mp hmem with h | h
    · exact hb h
    · cases List.mem_singleton.mp h
      exact ha (List.mem_cons_self _ _)

/-- Appending a row whose username and email are both fresh preserves the
uniqueness invariant. -/
theorem Inv_append_single (s : Store) (n : User)
    (h : Inv s) (hn : ∀ r ∈ s, r.username ≠ n.username ∧ r.email ≠ n.email) :
    Inv (s ++ [n]) := by
  constructor
  · have hus : usernames (s ++ [n]) = usernames s ++ [n.username] := by
      simp [usernames]
    rw [hus]
    refine nodup_append_single _ _ ?_ h.1
    intro hmem
    rcases List.mem_map.mp hmem with ⟨r, hr, hru⟩
    exact (hn r hr).1 hru
  · have hem : emails (s ++ [n]) = emails s ++ [n.email] := by
      simp [emails]
    rw [hem]
    refine nodup_append_single _ _ ?_ h.2
    intro hmem
    rcases List.mem_map.mp hmem with ⟨r, hr, hre⟩
    exact (hn r hr).2 hre

/-- C5: the uniqueness invariant on usernames and emails is preserved by
every operation.  Reads leave the store unchanged; `initialize` recreates a
one-row store; a conflicting `create_user` fails with the recoverable
conflict message leaving the store unchanged, and a non-conflicting one
appends a row whose username and email are fresh; `delete_user` only
removes a row; a committed `change_email` rewrites one email to a value no
other row holds, and a conflicting one propagates with the store rolled
back unchanged. -/
theorem invariant_preserved (s : Store) (u e p q : String) (limit offset : Nat)
    (h : Inv s) :
    Inv (initialize_db s).1 ∧
    Inv (create_user s u e p).1 ∧
    (insertConflict s u e = true → create_user s u e p = (s, [Msg.conflict])) ∧
    Inv (delete_user s u).1 ∧
    (∀ s2 out, change_email s u e = Except.ok (s2, out) → Inv s2) ∧
    (∀ s2, change_email s u e = Except.error s2 → s2 = s) ∧
    (get_user s u).1 = s ∧ (get_all_users s).1 = s ∧
    (search_users s q).1 = s ∧ (list_users s limit offset).1 = s := by
  refine ⟨?_, ?_, ?_, ?_, ?_, ?_, ?_, ?_, ?_, ?_⟩
  · exact (by decide : Inv [bob])
  · cases hB : insertConflict s u e with
    | true =>
      rw [show (create_user s u e p).1 = s from by simp [create_user, hB]]
      exact h
    | false =>
      have hforall : ∀ r ∈ s, r.username ≠ u ∧ r.email ≠ e := by
        intro r hr
        have hx := List.any_eq_false.mp hB r hr
        rw [Bool.or_eq_true, not_or, beq_iff_eq, beq_iff_eq] at hx
        exact hx
      have h1 : (create_user s u e p).1 =
          s ++ [{ id := nextId s, username := u, email := e, password := p }] := by
        simp [create_user, hB]
      rw [h1]
      exact Inv_append_single s _ h hforall
  · intro hC
    simp [create_user, hC]
  · cases hf : s.find? (fun x => x.username == u) with
    | none =>
      rw [show (delete_user s u).1 = s from by simp [delete_user, hf]]
      exact h
    | some r =>
      rw [show (delete_user s u).1 = s.eraseP (fun x => x.username == u) from by
        simp [delete_user, hf]]
      have hsub : List.Sublist (s.eraseP fun x => x.username == u) s :=
        List.eraseP_sublist s
      constructor
      · show (List.map (fun x => x.username) (s.eraseP fun x => x.username == u)).Nodup
        exact List.Nodup.sublist (List.Sublist.map (fun x => x.username) hsub) h.1
      · show (List.map (fun x => x.email) (s.eraseP fun x => x.username == u)).Nodup
        exact List.Nodup.sublist (List.Sublist.map (fun x => x.email) hsub) h.2
  · intro s2 out hok
    cases hf : s.find? (fun x => x.username == u) with
    | none =>
      rw [show change_email s u e = Except.ok (s, [Msg.notFound u]) from by
        simp [change_email, hf]] at hok
      injection hok with h'
      injection h' with h1 h2
      rw [← h1]
      exact h
    | some r =>
      cases hB : s.any fun x => !(x.username == u) && x.email == e with
      | true => simp [change_email, hf, hB] at hok
      | false =>
        have hfree : ∀ v ∈ s, v.username ≠ u → v.email ≠ e := by
          intro v hv hvu hve
          have hx := List.any_eq_false.mp hB v hv
          rw [Bool.and_eq_true, Bool.not_eq_true', beq_eq_false_iff_ne, beq_iff_eq] at hx
          exact hx ⟨hvu, hve⟩
        rw [show change_email s u e =
            Except.ok (updateFirst (fun x => x.username == u) (setEmail e) s,
              [Msg.updatedEmail r.username e]) from by
          simp [change_email, hf, hB]] at hok
        injection hok with h'
        injection h' with h1 h2
        rw [← h1, updateFirst_username_eq_map s u (setEmail e) h.1]
        exact ⟨by rw [usernames_map_setEmail]; exact h.1,
               nodup_emails_update s u e h.1 h.2 hfree⟩
  · intro s2 herr
    cases hf : s.find? (fun x => x.username == u) with
    | none => simp [change_email, hf] at herr
    | some r =>
      cases hB : s.any fun x => !(x.username == u) && x.email == e with
      | true =>
        rw [show change_email s u e = Except.error s from by
          simp [change_email, hf, hB]] at herr
        injection herr with h'
        exact h'.symm
      | false => simp [change_email, hf, hB] at herr
  · cases hf : s.find? (fun x => x.username == u) <;> simp [get_user, hf]
  · cases hB : s.isEmpty <;> simp [get_all_users, hB]
  · cases hF : s.filter (matchesQuery q) <;> simp [search_users, hF]
  · cases hW : (s.drop offset).take limit <;> simp [list_users, hW]

/-- Witness for C5 on the two-row store. -/
theorem invariant_preserved_witness :
    Inv (initialize_db pairStore).1 ∧
    Inv (create_user pairStore "a" "new@x.com" "p").1 ∧
    (insertConflict pairStore "a" "new@x.com" = true →
      create_user pairStore "a" "new@x.com" "p" = (pairStore, [Msg.conflict])) ∧
    Inv (delete_user pairStore "a").1 ∧
    (∀ s2 out, change_email pairStore "a" "new@x.com" = Except.ok (s2, out) → Inv s2) ∧
    (∀ s2, change_email pairStore "a" "new@x.com" = Except.error s2 → s2 = pairStore) ∧
    (get_user pairStore "a").1 = pairStore ∧
    (get_all_users pairStore).1 = pairStore ∧
    (search_users pairStore "x.com").1 = pairStore ∧
    (list_users pairStore 2 1).1 = pairStore :=
  invariant_preserved pairStore "a" "new@x.com" "p" "x.com" 2 1 (by decide)

end UserCli
